import Mathlib

/-!
Verification of the cap-telemetry stack-sampling span-reconstruction engine.

The development embeds, as executable Lean definitions, the core algorithms of
the repository:

* the common-prefix stack differ `convertSamplesToEvents` and the sample-list
  driver `convertSamplesToTrace` (from `stack-to-trace.js`; the identical diff
  also appears as `CAPStackSamplingTracer.convertSamplesToEvents`),
* the per-async-context span bookkeeping of `CAPStackSamplingTracer`
  (`applyEventsToSpans`, `processSamples`, `captureStackSample`,
  `flushAsyncContext`),
* the batch profile reconstructor and depth-keyed span application of
  `processProfileToSpans` (from `srv/tracer.ts`).

JavaScript `Map` objects are embedded as association lists with
replace-on-set semantics; JavaScript numbers that may become `NaN` are
embedded as `Option ℚ` with `none` standing for `NaN`.
-/

/-- Kind of a frame-transition trace event (`kind: 'START' | 'END'`). -/
inductive EKind where
  | START
  | END
  deriving DecidableEq, Repr

/-- A trace event `{ kind, ts, name }` as produced by the stack differ. -/
structure TraceEvent where
  kind : EKind
  ts : ℚ
  name : String
  deriving DecidableEq, Repr

/-- A sample `{ ts, stack }` consumed by `convertSamplesToTrace`. -/
structure JsSample where
  ts : ℚ
  stack : List String
  deriving DecidableEq, Repr

/-- The common-prefix computation of the differ: the `while` loop
`while (commonLen < prev.length && commonLen < curr.length &&
prev[commonLen] === curr[commonLen]) commonLen++`. -/
def commonLen : List String → List String → Nat
  | a :: as, b :: bs => if a = b then commonLen as bs + 1 else 0
  | _, _ => 0

/-- The END-emitting loop `for (let i = prev.length - 1; i >= commonLen; i--)
events.push({kind: 'END', ts, name: prev[i]})`, embedded by downward recursion
on the loop index (the last argument is one past the first index examined). -/
def endLoop (prev : List String) (t : ℚ) (c : Nat) : Nat → List TraceEvent
  | 0 => []
  | i + 1 =>
    if c ≤ i then TraceEvent.mk EKind.END t (prev.getD i "") :: endLoop prev t c i
    else []

/-- The START-emitting loop `for (let i = commonLen; i < curr.length; i++)
events.push({kind: 'START', ts, name: curr[i]})`; the first argument of the
recursion is the current index, the second the number of remaining
iterations. -/
def startLoop (curr : List String) (t : ℚ) : Nat → Nat → List TraceEvent
  | _, 0 => []
  | i, n + 1 => TraceEvent.mk EKind.START t (curr.getD i "") :: startLoop curr t (i + 1) n

/-- The stack differ for one `(prevStack, currStack)` pair: body of the loop of
`convertSamplesToTrace` in `stack-to-trace.js`, identical to
`CAPStackSamplingTracer.convertSamplesToEvents`. -/
def convertSamplesToEvents (prevStack currStack : List String) (currentTs : ℚ) :
    List TraceEvent :=
  let c := commonLen prevStack currStack
  endLoop prevStack currentTs c prevStack.length ++
    startLoop currStack currentTs c (currStack.length - c)

/-- The sample loop of `convertSamplesToTrace`, with the running `prevStack`
made an explicit argument (the source initialises it to `[]`). -/
def convertFrom (prevStack : List String) : List JsSample → List TraceEvent
  | [] => []
  | s :: rest => convertSamplesToEvents prevStack s.stack s.ts ++ convertFrom s.stack rest

/-- `convertSamplesToTrace` from `stack-to-trace.js`: fold the differ over the
sample list starting from an empty previous stack. -/
def convertSamplesToTrace (samples : List JsSample) : List TraceEvent :=
  convertFrom [] samples

theorem commonLen_le_left (p q : List String) : commonLen p q ≤ p.length := by
  induction p generalizing q with
  | nil => cases q <;> simp [commonLen]
  | cons a as ih =>
    cases q with
    | nil => simp [commonLen]
    | cons b bs =>
      simp only [commonLen, List.length_cons]
      split
      · exact Nat.succ_le_succ (ih bs)
      · exact Nat.zero_le _

theorem commonLen_le_right (p q : List String) : commonLen p q ≤ q.length := by
  induction p generalizing q with
  | nil => cases q <;> simp [commonLen]
  | cons a as ih =>
    cases q with
    | nil => simp [commonLen]
    | cons b bs =>
      simp only [commonLen, List.length_cons]
      split
      · exact Nat.succ_le_succ (ih bs)
      · exact Nat.zero_le _

theorem commonLen_take (p q : List String) :
    p.take (commonLen p q) = q.take (commonLen p q) := by
  induction p generalizing q with
  | nil => cases q <;> simp [commonLen]
  | cons a as ih =>
    cases q with
    | nil => simp [commonLen]
    | cons b bs =>
      simp only [commonLen]
      split
      · next h => simp [List.take_succ_cons, h, ih bs]
      · simp

theorem commonLen_maximal (p q : List String) (n : Nat)
    (hp : n ≤ p.length) (hq : n ≤ q.length) (h : p.take n = q.take n) :
    n ≤ commonLen p q := by
  induction p generalizing q n with
  | nil =>
    have hn : n = 0 := by simpa using hp
    simp [hn]
  | cons a as ih =>
    cases q with
    | nil =>
      have hn : n = 0 := by simpa using hq
      simp [hn]
    | cons b bs =>
      cases n with
      | zero => exact Nat.zero_le _
      | succ m =>
        simp only [List.take_succ_cons, List.cons.injEq] at h
        simp only [commonLen, if_pos h.1]
        exact Nat.succ_le_succ (ih bs m (Nat.le_of_succ_le_succ hp)
          (Nat.le_of_succ_le_succ hq) h.2)

theorem commonLen_self (s : List String) : commonLen s s = s.length := by
  induction s with
  | nil => simp [commonLen]
  | cons a as ih => simp [commonLen, ih]

theorem endLoop_eq (prev : List String) (t : ℚ) (c : Nat) (i : Nat) :
    endLoop prev t c i =
      ((List.range' c (i - c)).reverse).map
        (fun j => TraceEvent.mk EKind.END t (prev.getD j "")) := by
  induction i with
  | zero => simp [endLoop, Nat.zero_sub]
  | succ i ih =>
    by_cases h : c ≤ i
    · simp only [endLoop, if_pos h, ih]
      rw [show i + 1 - c = (i - c) + 1 from by omega, List.range'_concat]
      simp only [List.reverse_append, List.reverse_cons, List.reverse_nil, List.nil_append,
        List.singleton_append, List.map_cons]
      rw [show c + 1 * (i - c) = i from by omega]
    · simp only [endLoop, if_neg h]
      rw [show i + 1 - c = 0 from by omega]
      simp

theorem startLoop_eq (curr : List String) (t : ℚ) (n : Nat) :
    ∀ i, startLoop curr t i n =
      (List.range' i n).map
        (fun j => TraceEvent.mk EKind.START t (curr.getD j "")) := by
  induction n with
  | zero => intro i; simp [startLoop]
  | succ n ih =>
    intro i
    simp only [startLoop, List.range'_succ, List.map_cons, ih]

/-- Claim C1: for every pair of stacks and timestamp, the differ emits exactly
`len(prev) - commonLen` END events followed by exactly `len(curr) - commonLen`
START events, where `commonLen` is the length of the longest common prefix
under element-wise name equality; the `k`-th END event carries the frame at
index `prev.length - 1 - k` (strictly descending, innermost first) and the
`k`-th START event the frame at index `commonLen + k` (strictly ascending,
outermost first), all at the given timestamp. -/
theorem c1_diff_event_shape (prev curr : List String) (t : ℚ) :
    prev.take (commonLen prev curr) = curr.take (commonLen prev curr) ∧
    (∀ n, n ≤ prev.length → n ≤ curr.length →
      prev.take n = curr.take n → n ≤ commonLen prev curr) ∧
    convertSamplesToEvents prev curr t =
      (((List.range' (commonLen prev curr) (prev.length - commonLen prev curr)).reverse).map
        (fun j => TraceEvent.mk EKind.END t (prev.getD j ""))) ++
      ((List.range' (commonLen prev curr) (curr.length - commonLen prev curr)).map
        (fun j => TraceEvent.mk EKind.START t (curr.getD j ""))) ∧
    (convertSamplesToEvents prev curr t).length =
      (prev.length - commonLen prev curr) + (curr.length - commonLen prev curr) := by
  refine ⟨commonLen_take prev curr, fun n hp hq h => commonLen_maximal prev curr n hp hq h,
    ?_, ?_⟩
  · rw [convertSamplesToEvents, endLoop_eq, startLoop_eq]
  · rw [convertSamplesToEvents, endLoop_eq, startLoop_eq]
    simp

/-- Witness for C1 at the concrete stacks of the worked example. -/
theorem c1_diff_event_shape_witness :
    (["main", "fn1", "fn2"].take (commonLen ["main", "fn1", "fn2"] ["main", "fn2", "fn1"]) =
      ["main", "fn2", "fn1"].take (commonLen ["main", "fn1", "fn2"] ["main", "fn2", "fn1"])) ∧
    (∀ n, n ≤ (["main", "fn1", "fn2"] : List String).length →
      n ≤ (["main", "fn2", "fn1"] : List String).length →
      (["main", "fn1", "fn2"] : List String).take n = ["main", "fn2", "fn1"].take n →
      n ≤ commonLen ["main", "fn1", "fn2"] ["main", "fn2", "fn1"]) ∧
    convertSamplesToEvents ["main", "fn1", "fn2"] ["main", "fn2", "fn1"] (93/10) =
      (((List.range' (commonLen ["main", "fn1", "fn2"] ["main", "fn2", "fn1"])
          ((["main", "fn1", "fn2"] : List String).length -
            commonLen ["main", "fn1", "fn2"] ["main", "fn2", "fn1"])).reverse).map
        (fun j => TraceEvent.mk EKind.END (93/10)
          ((["main", "fn1", "fn2"] : List String).getD j ""))) ++
      ((List.range' (commonLen ["main", "fn1", "fn2"] ["main", "fn2", "fn1"])
          ((["main", "fn2", "fn1"] : List String).length -
            commonLen ["main", "fn1", "fn2"] ["main", "fn2", "fn1"])).map
        (fun j => TraceEvent.mk EKind.START (93/10)
          ((["main", "fn2", "fn1"] : List String).getD j ""))) ∧
    (convertSamplesToEvents ["main", "fn1", "fn2"] ["main", "fn2", "fn1"] (93/10)).length =
      ((["main", "fn1", "fn2"] : List String).length -
        commonLen ["main", "fn1", "fn2"] ["main", "fn2", "fn1"]) +
      ((["main", "fn2", "fn1"] : List String).length -
        commonLen ["main", "fn1", "fn2"] ["main", "fn2", "fn1"]) :=
  c1_diff_event_shape ["main", "fn1", "fn2"] ["main", "fn2", "fn1"] (93/10)

/-- Claim C8: the differ is idempotent: `diff(s, s, t)` emits zero events, and
a sample whose stack equals the running previous stack contributes no events
to the pipeline output. -/
theorem c8_diff_idempotent (s : List String) (t : ℚ) :
    convertSamplesToEvents s s t = [] ∧
    ∀ (rest : List JsSample) (ts : ℚ),
      convertFrom s (JsSample.mk ts s :: rest) = convertFrom s rest := by
  have hz : convertSamplesToEvents s s t = [] := by
    rw [convertSamplesToEvents, endLoop_eq, startLoop_eq, commonLen_self]
    simp
  refine ⟨hz, fun rest ts => ?_⟩
  have hz2 : convertSamplesToEvents s s ts = [] := by
    rw [convertSamplesToEvents, endLoop_eq, startLoop_eq, commonLen_self]
    simp
  simp [convertFrom, hz2]

/-- Claim C2: feeding the worked-example samples through the diff pipeline,
with `main` already open (previous stack `["main"]`), yields no event at 7.5,
then START fn1, START fn2 at 9.1, then END fn2, END fn1, START fn2, START fn1
at 9.3 (common prefix length 1), then END fn1, END fn2 at 10.7. -/
theorem c2_worked_example :
    convertFrom ["main"]
      [JsSample.mk 7.5 ["main"],
       JsSample.mk 9.1 ["main", "fn1", "fn2"],
       JsSample.mk 9.3 ["main", "fn2", "fn1"],
       JsSample.mk 10.7 ["main"]] =
      [TraceEvent.mk EKind.START 9.1 "fn1",
       TraceEvent.mk EKind.START 9.1 "fn2",
       TraceEvent.mk EKind.END 9.3 "fn2",
       TraceEvent.mk EKind.END 9.3 "fn1",
       TraceEvent.mk EKind.START 9.3 "fn2",
       TraceEvent.mk EKind.START 9.3 "fn1",
       TraceEvent.mk EKind.END 10.7 "fn1",
       TraceEvent.mk EKind.END 10.7 "fn2"] := by
  rfl

/-- Association-list lookup embedding `Map.get` of a JavaScript `Map`. -/
def mapGet {κ α : Type} [DecidableEq κ] : List (κ × α) → κ → Option α
  | [], _ => none
  | (k, v) :: rest, k2 => if k = k2 then some v else mapGet rest k2

/-- Association-list update embedding `Map.set`: replace the first binding of
the key, or append a fresh binding. -/
def mapSet {κ α : Type} [DecidableEq κ] : List (κ × α) → κ → α → List (κ × α)
  | [], k2, v2 => [(k2, v2)]
  | (k, v) :: rest, k2, v2 =>
    if k = k2 then (k2, v2) :: rest else (k, v) :: mapSet rest k2 v2

/-- Association-list removal embedding `Map.delete` (a JavaScript `Map` holds
at most one binding per key, so removing every binding of the key is the
faithful image of `delete` on the representable states). -/
def mapDel {κ α : Type} [DecidableEq κ] : List (κ × α) → κ → List (κ × α)
  | [], _ => []
  | (k, v) :: rest, k2 => if k = k2 then mapDel rest k2 else (k, v) :: mapDel rest k2

/-- Association-list membership embedding `Map.has`. -/
def mapHas {κ α : Type} [DecidableEq κ] (m : List (κ × α)) (k : κ) : Bool :=
  (mapGet m k).isSome

theorem mapGet_set_self {κ α : Type} [DecidableEq κ] (m : List (κ × α)) (k : κ) (v : α) :
    mapGet (mapSet m k v) k = some v := by
  induction m with
  | nil => simp [mapGet, mapSet]
  | cons p rest ih =>
    by_cases h : p.1 = k
    · simp [mapSet, mapGet, h]
    · simp [mapSet, mapGet, h, ih]

theorem mapGet_set_ne {κ α : Type} [DecidableEq κ] (m : List (κ × α)) (k k2 : κ) (v : α)
    (h : k2 ≠ k) : mapGet (mapSet m k v) k2 = mapGet m k2 := by
  have hk : ¬ (k = k2) := fun h2 => h h2.symm
  induction m with
  | nil => simp [mapGet, mapSet, hk]
  | cons p rest ih =>
    rcases p with ⟨pk, pv⟩
    by_cases hp : pk = k
    · subst hp
      simp [mapSet, mapGet, hk]
    · simp [mapSet, mapGet, hp, ih]

theorem mapGet_del_self {κ α : Type} [DecidableEq κ] (m : List (κ × α)) (k : κ) :
    mapGet (mapDel m k) k = none := by
  induction m with
  | nil => simp [mapGet, mapDel]
  | cons p rest ih =>
    rcases p with ⟨pk, pv⟩
    by_cases hp : pk = k
    · simp [mapDel, hp, ih]
    · simp [mapDel, mapGet, hp, ih]

theorem mapGet_del_ne {κ α : Type} [DecidableEq κ] (m : List (κ × α)) (k k2 : κ)
    (h : k2 ≠ k) : mapGet (mapDel m k) k2 = mapGet m k2 := by
  have hk : ¬ (k = k2) := fun h2 => h h2.symm
  induction m with
  | nil => simp [mapGet, mapDel]
  | cons p rest ih =>
    rcases p with ⟨pk, pv⟩
    by_cases hp : pk = k
    · subst hp
      simp [mapDel, mapGet, hk, ih]
    · simp [mapDel, mapGet, hp, ih]

theorem mapGet_eq_none_iff {κ α : Type} [DecidableEq κ] (m : List (κ × α)) (k : κ) :
    mapGet m k = none ↔ k ∉ m.map Prod.fst := by
  induction m with
  | nil => simp [mapGet]
  | cons p rest ih =>
    rcases p with ⟨pk, pv⟩
    by_cases hp : pk = k
    · simp [mapGet, hp]
    · have hk : ¬ (k = pk) := fun h2 => hp h2.symm
      simp [mapGet, hp, hk, ih]

theorem mapSet_of_get_none {κ α : Type} [DecidableEq κ] (m : List (κ × α)) (k : κ) (v : α)
    (h : mapGet m k = none) : mapSet m k v = m ++ [(k, v)] := by
  induction m with
  | nil => simp [mapSet]
  | cons p rest ih =>
    rcases p with ⟨pk, pv⟩
    by_cases hp : pk = k
    · simp [mapGet, hp] at h
    · simp only [mapGet, if_neg hp] at h
      simp [mapSet, hp, ih h]

/-- A sample of `CAPStackSamplingTracer`: `{ ts, stack, asyncId }`. -/
structure Sample003 where
  ts : ℚ
  stack : List String
  asyncId : Nat
  deriving DecidableEq, Repr

/-- An open span held in `activeSpans`: created by
`tracer.startSpan(event.name, { startTime: event.ts })`. -/
structure OpenSpan where
  name : String
  startTs : ℚ
  deriving DecidableEq, Repr

/-- A span after `span.end(...)`: `endTs` is the explicit end timestamp when
one was passed, and `statusOk` records whether `setStatus({code: OK})` ran. -/
structure FinishedSpan where
  name : String
  startTs : ℚ
  endTs : ℚ
  statusOk : Bool
  deriving DecidableEq, Repr

/-- The mutable state of `CAPStackSamplingTracer`: `samples` maps an asyncId to
its recorded samples, `activeSpans` maps an asyncId to its name-keyed table of
open spans. -/
structure SamplerState where
  samples : List (Nat × List Sample003)
  activeSpans : List (Nat × List (String × OpenSpan))
  deriving DecidableEq, Repr

/-- The open-span table of one async context (empty when absent). -/
def spansOf (st : SamplerState) (asyncId : Nat) : List (String × OpenSpan) :=
  (mapGet st.activeSpans asyncId).getD []

/-- The event loop of `applyEventsToSpans`: a START stores a fresh span under
its frame name; an END looks the name up, and when found ends the span at the
event timestamp with status OK and removes it (when not found it does
nothing). Returns the updated table and the spans handed off in closing
order. -/
def applyEventsLoop : List (String × OpenSpan) → List TraceEvent →
    List (String × OpenSpan) × List FinishedSpan
  | spans, [] => (spans, [])
  | spans, e :: rest =>
    match e.kind with
    | EKind.START => applyEventsLoop (mapSet spans e.name (OpenSpan.mk e.name e.ts)) rest
    | EKind.END =>
      match mapGet spans e.name with
      | some sp =>
        let out := applyEventsLoop (mapDel spans e.name) rest
        (out.1, FinishedSpan.mk sp.name sp.startTs e.ts true :: out.2)
      | none => applyEventsLoop spans rest

/-- `CAPStackSamplingTracer.applyEventsToSpans`: ensures the context has a
table (creating an empty one when absent, as the source does), then runs the
event loop and stores the resulting table back. -/
def applyEventsToSpans (st : SamplerState) (asyncId : Nat) (events : List TraceEvent) :
    SamplerState × List FinishedSpan :=
  let out := applyEventsLoop (spansOf st asyncId) events
  (SamplerState.mk st.samples (mapSet st.activeSpans asyncId out.1), out.2)

/-- `CAPStackSamplingTracer.processSamples`: with fewer than two samples for
the context it returns; otherwise it diffs the last two samples and applies
the events (finished spans are handed to the exporter and leave the state). -/
def processSamples (st : SamplerState) (asyncId : Nat) : SamplerState :=
  match mapGet st.samples asyncId with
  | none => st
  | some samples =>
    if samples.length < 2 then st
    else
      let prevSample := samples.getD (samples.length - 2) (Sample003.mk 0 [] 0)
      let currSample := samples.getD (samples.length - 1) (Sample003.mk 0 [] 0)
      let events := convertSamplesToEvents prevSample.stack currSample.stack currSample.ts
      (applyEventsToSpans st asyncId events).1

/-- `CAPStackSamplingTracer.captureStackSample`: extract a function name from
every raw stack line, drop falsy and excluded names, and when nothing is left
return with the state untouched; otherwise record the sample for the current
async context and process it. The raw stack, the name extractor, the
exclusion predicate, the clock value and the current asyncId are ambient
inputs of the source made explicit arguments here. -/
def captureStackSample (extractName : String → String) (exclude : String → Bool)
    (rawLines : List String) (now : ℚ) (asyncId : Nat) (st : SamplerState) : SamplerState :=
  let functionNames := (rawLines.map extractName).filter
    (fun n => !(n = "" : Bool) && !(exclude n))
  if functionNames.isEmpty then st
  else
    let sample := Sample003.mk now functionNames asyncId
    let prevList := (mapGet st.samples asyncId).getD []
    let st2 := SamplerState.mk (mapSet st.samples asyncId (prevList ++ [sample])) st.activeSpans
    processSamples st2 asyncId

/-- `CAPStackSamplingTracer.flushAsyncContext`: drop the context's samples,
end every remaining open span of the context at the current time (the
`now` argument embeds the clock read by the timestamp-less `span.end()`),
and remove the context's table. Returns the force-closed spans. -/
def flushAsyncContext (st : SamplerState) (asyncId : Nat) (now : ℚ) :
    SamplerState × List FinishedSpan :=
  let closed := (spansOf st asyncId).map (fun p => FinishedSpan.mk p.2.name p.2.startTs now false)
  (SamplerState.mk (mapDel st.samples asyncId) (mapDel st.activeSpans asyncId), closed)

/-- Claim C5: an END event whose frame has no matching open span in its
context is a silent no-op: the embedding is a total function (the source
guards the lookup, so nothing can throw), the context's open spans and the
recorded samples are unchanged, every other context's table is unchanged, and
no span is handed off. -/
theorem c5_end_without_match_noop (st : SamplerState) (asyncId : Nat) (name : String) (ts : ℚ)
    (h : mapGet (spansOf st asyncId) name = none) :
    (applyEventsToSpans st asyncId [TraceEvent.mk EKind.END ts name]).1.samples = st.samples ∧
    spansOf (applyEventsToSpans st asyncId [TraceEvent.mk EKind.END ts name]).1 asyncId =
      spansOf st asyncId ∧
    (∀ other, other ≠ asyncId →
      mapGet (applyEventsToSpans st asyncId
        [TraceEvent.mk EKind.END ts name]).1.activeSpans other =
        mapGet st.activeSpans other) ∧
    (applyEventsToSpans st asyncId [TraceEvent.mk EKind.END ts name]).2 = [] := by
  have hloop : applyEventsLoop (spansOf st asyncId) [TraceEvent.mk EKind.END ts name] =
      (spansOf st asyncId, []) := by
    simp [applyEventsLoop, h]
  simp only [applyEventsToSpans, hloop]
  refine ⟨trivial, ?_, ?_, trivial⟩
  · simp [spansOf, mapGet_set_self]
  · intro other hother
    exact mapGet_set_ne _ _ _ _ hother

/-- Witness for C5: a context holding only a span named `g` receives an END
event for `f`. -/
theorem c5_end_without_match_noop_witness :
    mapGet (spansOf (SamplerState.mk [] [(1, [("g", OpenSpan.mk "g" 1)])]) 1) "f" = none ∧
    ((applyEventsToSpans (SamplerState.mk [] [(1, [("g", OpenSpan.mk "g" 1)])]) 1
        [TraceEvent.mk EKind.END 2 "f"]).1.samples =
      (SamplerState.mk [] [(1, [("g", OpenSpan.mk "g" 1)])]).samples ∧
    spansOf (applyEventsToSpans (SamplerState.mk [] [(1, [("g", OpenSpan.mk "g" 1)])]) 1
        [TraceEvent.mk EKind.END 2 "f"]).1 1 =
      spansOf (SamplerState.mk [] [(1, [("g", OpenSpan.mk "g" 1)])]) 1 ∧
    (∀ other, other ≠ 1 →
      mapGet (applyEventsToSpans (SamplerState.mk [] [(1, [("g", OpenSpan.mk "g" 1)])]) 1
        [TraceEvent.mk EKind.END 2 "f"]).1.activeSpans other =
        mapGet (SamplerState.mk [] [(1, [("g", OpenSpan.mk "g" 1)])]).activeSpans other) ∧
    (applyEventsToSpans (SamplerState.mk [] [(1, [("g", OpenSpan.mk "g" 1)])]) 1
        [TraceEvent.mk EKind.END 2 "f"]).2 = []) :=
  ⟨rfl, c5_end_without_match_noop (SamplerState.mk [] [(1, [("g", OpenSpan.mk "g" 1)])])
    1 "f" 2 rfl⟩

/-- Claim C6: after `flushAsyncContext` (the teardown run on async-context
destruction), the context's open-span table and sample list are gone, and
every span that was open is closed with end timestamp equal to the teardown
time. -/
theorem c6_teardown_complete (st : SamplerState) (ctx : Nat) (now : ℚ) :
    mapGet (flushAsyncContext st ctx now).1.activeSpans ctx = none ∧
    mapGet (flushAsyncContext st ctx now).1.samples ctx = none ∧
    spansOf (flushAsyncContext st ctx now).1 ctx = [] ∧
    (flushAsyncContext st ctx now).2 =
      (spansOf st ctx).map (fun p => FinishedSpan.mk p.2.name p.2.startTs now false) ∧
    ∀ f ∈ (flushAsyncContext st ctx now).2, f.endTs = now := by
  refine ⟨mapGet_del_self _ _, mapGet_del_self _ _, ?_, rfl, ?_⟩
  · simp [spansOf, flushAsyncContext, mapGet_del_self]
  · intro f hf
    simp only [flushAsyncContext] at hf
    rcases List.mem_map.mp hf with ⟨p, _, hfp⟩
    rw [← hfp]

/-- Witness for C6: tearing down a context that holds two open spans. -/
theorem c6_teardown_complete_witness :
    mapGet (flushAsyncContext (SamplerState.mk [(2, [Sample003.mk 1 ["main"] 2])]
      [(2, [("main", OpenSpan.mk "main" 1), ("fn1", OpenSpan.mk "fn1" 3)])]) 2 5).1.activeSpans
      2 = none ∧
    mapGet (flushAsyncContext (SamplerState.mk [(2, [Sample003.mk 1 ["main"] 2])]
      [(2, [("main", OpenSpan.mk "main" 1), ("fn1", OpenSpan.mk "fn1" 3)])]) 2 5).1.samples
      2 = none ∧
    spansOf (flushAsyncContext (SamplerState.mk [(2, [Sample003.mk 1 ["main"] 2])]
      [(2, [("main", OpenSpan.mk "main" 1), ("fn1", OpenSpan.mk "fn1" 3)])]) 2 5).1 2 = [] ∧
    (flushAsyncContext (SamplerState.mk [(2, [Sample003.mk 1 ["main"] 2])]
      [(2, [("main", OpenSpan.mk "main" 1), ("fn1", OpenSpan.mk "fn1" 3)])]) 2 5).2 =
      (spansOf (SamplerState.mk [(2, [Sample003.mk 1 ["main"] 2])]
        [(2, [("main", OpenSpan.mk "main" 1), ("fn1", OpenSpan.mk "fn1" 3)])]) 2).map
        (fun p => FinishedSpan.mk p.2.name p.2.startTs 5 false) ∧
    ∀ f ∈ (flushAsyncContext (SamplerState.mk [(2, [Sample003.mk 1 ["main"] 2])]
      [(2, [("main", OpenSpan.mk "main" 1), ("fn1", OpenSpan.mk "fn1" 3)])]) 2 5).2,
      f.endTs = 5 :=
  c6_teardown_complete (SamplerState.mk [(2, [Sample003.mk 1 ["main"] 2])]
    [(2, [("main", OpenSpan.mk "main" 1), ("fn1", OpenSpan.mk "fn1" 3)])]) 2 5

/-- Claim C10: a live-sampler tick whose captured stack is empty after frame
filtering records no sample and leaves the tracer state entirely unchanged
(the source returns before any diff or span bookkeeping runs). -/
theorem c10_empty_filtered_stack_noop (extractName : String → String)
    (exclude : String → Bool) (rawLines : List String) (now : ℚ) (asyncId : Nat)
    (st : SamplerState)
    (h : (rawLines.map extractName).filter
      (fun n => !(n = "" : Bool) && !(exclude n)) = []) :
    captureStackSample extractName exclude rawLines now asyncId st = st := by
  simp [captureStackSample, h]

/-- Witness for C10: a tick whose only raw frame is excluded by the filter. -/
theorem c10_empty_filtered_stack_noop_witness :
    ((["at Promise.then (internal)"].map (fun _ => "Promise.then")).filter
      (fun n => !(n = "" : Bool) && !((fun s => s == "Promise.then") n)) = []) ∧
    captureStackSample (fun _ => "Promise.then") (fun s => s == "Promise.then")
      ["at Promise.then (internal)"] 7 3
      (SamplerState.mk [(3, [Sample003.mk 1 ["main"] 3])] [(3, [("main", OpenSpan.mk "main" 1)])]) =
      SamplerState.mk [(3, [Sample003.mk 1 ["main"] 3])] [(3, [("main", OpenSpan.mk "main" 1)])] :=
  ⟨rfl, c10_empty_filtered_stack_noop (fun _ => "Promise.then") (fun s => s == "Promise.then")
    ["at Promise.then (internal)"] 7 3
    (SamplerState.mk [(3, [Sample003.mk 1 ["main"] 3])] [(3, [("main", OpenSpan.mk "main" 1)])])
    rfl⟩

/-- A node of the V8 call-graph profile as consumed by `processProfileToSpans`:
`{ id, callFrame: { functionName }, children }` with children nested as
node objects. -/
inductive PNode where
  | mk : Nat → String → List PNode → PNode
  deriving Repr

/-- The node identifier. -/
def PNode.id : PNode → Nat
  | PNode.mk i _ _ => i

/-- The frame name of the node (`callFrame.functionName`). -/
def PNode.functionName : PNode → String
  | PNode.mk _ f _ => f

/-- The child nodes. -/
def PNode.children : PNode → List PNode
  | PNode.mk _ _ cs => cs

mutual

/-- The `traverse` function of `processProfileToSpans`, acting on the pair
`(nodeMap, parentMap)`: record the node's name (an empty `functionName` is
falsy in JavaScript, so it becomes `'(anonymous)'`), then visit the children,
recording each child's parent edge just before descending into it. -/
def travNode (acc : List (Nat × String) × List (Nat × Nat)) :
    PNode → List (Nat × String) × List (Nat × Nat)
  | PNode.mk i f cs =>
    travChildren i
      (mapSet acc.1 i (if f = "" then "(anonymous)" else f), acc.2) cs

/-- The `node.children.forEach` loop of `traverse`. -/
def travChildren (parentId : Nat)
    (acc : List (Nat × String) × List (Nat × Nat)) :
    List PNode → List (Nat × String) × List (Nat × Nat)
  | [] => acc
  | c :: rest =>
    travChildren parentId (travNode (acc.1, mapSet acc.2 c.id parentId) c) rest

end

/-- A JavaScript number that can be `NaN`: `none` is `NaN`. -/
abbrev JsNum := Option ℚ

/-- JavaScript addition: adding `undefined` or `NaN` yields `NaN`. -/
def jsAdd : JsNum → JsNum → JsNum
  | some a, some b => some (a + b)
  | _, _ => none

/-- The microsecond-to-millisecond conversion `currentTime / 1000`; `NaN`
propagates. -/
def jsDiv1000 : JsNum → JsNum
  | some a => some (a / 1000)
  | none => none

/-- A reconstructed sample `{ ts, stack }` of `processProfileToSpans`. -/
structure RSample where
  ts : JsNum
  stack : List String
  deriving DecidableEq, Repr

/-- The call-graph profile input `profile.profile` of `processProfileToSpans`:
nested nodes, a start time, the per-tick leaf node ids, and the per-tick time
deltas. -/
structure CpuProfile where
  nodes : List PNode
  startTime : ℚ
  samples : List Nat
  timeDeltas : List ℚ

/-- The stack-building walk of `processProfileToSpans`:
`while (currentId !== undefined && nodeMap.has(currentId))` unshift the name
and move to the parent; the accumulator is the stack built so far (outer
frames are prepended, matching `unshift`). The walk is fuelled: a node tree
that reuses an ancestor's id makes `traverse` record an id-cyclic parent map
(e.g. `parentMap = {1 → 1}`), on which the source's loop never exits, while
this embedding stops when the fuel runs out — so theorems whose truth
depends on the walk terminating carry a `walkExits` hypothesis instead of
relying on the truncation. -/
def walkStack (nm : List (Nat × String)) (pm : List (Nat × Nat)) :
    Nat → Option Nat → List String → List String
  | 0, _, stack => stack
  | _ + 1, none, stack => stack
  | fuel + 1, some currentId, stack =>
    match mapGet nm currentId with
    | none => stack
    | some name => walkStack nm pm fuel (mapGet pm currentId) (name :: stack)

/-- Whether the source's parent walk exits within `fuel` inspections of its
loop condition `currentId !== undefined && nodeMap.has(currentId)`. A walk
that runs for more than `nm.length` steps without exiting has revisited some
id and is periodic, so with fuel `nm.length + 1` this decides termination of
the source's `while` loop for the given start id. -/
def walkExits (nm : List (Nat × String)) (pm : List (Nat × Nat)) :
    Nat → Option Nat → Bool
  | _, none => true
  | 0, some currentId => !(mapGet nm currentId).isSome
  | fuel + 1, some currentId =>
    match mapGet nm currentId with
    | none => true
    | some _ => walkExits nm pm fuel (mapGet pm currentId)

/-- The `profile.profile.samples.forEach` loop of `processProfileToSpans`:
accumulate `currentTime += timeDeltas[index]` (an out-of-range index gives
`undefined`, so the running time becomes `NaN`), build the stack for the leaf
node id, and emit one sample per entry. -/
def buildSamplesLoop (nm : List (Nat × String)) (pm : List (Nat × Nat))
    (timeDeltas : List ℚ) : List Nat → Nat → JsNum → List RSample
  | [], _, _ => []
  | nodeId :: rest, index, currentTime =>
    let currentTime2 := jsAdd currentTime (timeDeltas.get? index)
    RSample.mk (jsDiv1000 currentTime2) (walkStack nm pm (nm.length + 1) (some nodeId) []) ::
      buildSamplesLoop nm pm timeDeltas rest (index + 1) currentTime2

/-- The node and parent maps of a profile: `traverse(profile.profile.nodes[0])`
from empty maps (the source indexes `nodes[0]` unconditionally; an absent
first node would crash JavaScript before producing anything, so the default
node here is never relevant to the claims). -/
def profileMaps (p : CpuProfile) : List (Nat × String) × List (Nat × Nat) :=
  travNode ([], []) (p.nodes.headD (PNode.mk 0 "" []))

/-- Steps 1 and 2 of `processProfileToSpans`: reconstruct the linear
`{ ts, stack }` sample sequence from the call-graph profile. -/
def reconstructSamples (p : CpuProfile) : List RSample :=
  buildSamplesLoop (profileMaps p).1 (profileMaps p).2 p.timeDeltas p.samples 0
    (some p.startTime)

/-- A span created by `tracer.startSpan(fnName, {startTime}, spanContext)` in
`processProfileToSpans`. `sid` models the identity of the created span object
(spans are numbered in creation order); `parent` is the identity of the span
carried by the context passed to `startSpan`, which the source fixes to the
`parentSpan` argument for every creation; `below` is purely observational and
records the identity of the span stored under the next-lower depth key at the
moment of creation (the enclosing frame's span), which the source reads
nowhere. -/
structure TSpan where
  sid : Nat
  name : String
  startTs : JsNum
  parent : Option Nat
  below : Option Nat
  deriving DecidableEq, Repr

/-- An ended span: `endTs = some ts` for `span.end(millisecondsToHrTime(ts))`
in the END loop, `none` for the timestamp-less `span.end()` of the final
cleanup. -/
structure TFin where
  span : TSpan
  endTs : Option JsNum
  deriving DecidableEq, Repr

/-- The mutable state of the sample loop of `processProfileToSpans`:
`activeSpans` keyed by stack depth (`i + 1` for stack index `i`), the next
span identity, the spans ended so far, the running `prevStack`, and the
purely observational `clobbered`, which records every depth key that
`activeSpans.set` overwrote while it still held a span. -/
structure PState where
  activeSpans : List (Nat × TSpan)
  nextSid : Nat
  finished : List TFin
  clobbered : List Nat
  prevStack : List String
  deriving DecidableEq, Repr

/-- The END loop `for (let i = prevStack.length; i > commonLen; i--)`: a depth
key that is present is ended at the current timestamp and deleted. The last
argument is the loop variable. -/
def endPass (ts : JsNum) (c : Nat) : PState → Nat → PState
  | st, 0 => st
  | st, i + 1 =>
    if c < i + 1 then
      endPass ts c
        (match mapGet st.activeSpans (i + 1) with
         | some sp => PState.mk (mapDel st.activeSpans (i + 1)) st.nextSid
             (st.finished ++ [TFin.mk sp (some ts)]) st.clobbered st.prevStack
         | none => st) i
    else st

/-- The START loop `for (let i = commonLen; i < currStack.length; i++)`: the
frame `'(root)'` is skipped, every other frame gets a fresh span stored under
depth key `i + 1`. The second argument is the loop index, the third the
number of remaining iterations. -/
def startPass (parentId : Nat) (curr : List String) (ts : JsNum) :
    PState → Nat → Nat → PState
  | st, _, 0 => st
  | st, i, n + 1 =>
    if curr.getD i "" = "(root)" then startPass parentId curr ts st (i + 1) n
    else
      startPass parentId curr ts
        (PState.mk
          (mapSet st.activeSpans (i + 1)
            (TSpan.mk st.nextSid (curr.getD i "") ts (some parentId)
              ((mapGet st.activeSpans i).map TSpan.sid)))
          (st.nextSid + 1) st.finished
          (if mapHas st.activeSpans (i + 1) then st.clobbered ++ [i + 1] else st.clobbered)
          st.prevStack) (i + 1) n

/-- One iteration of the `samples.forEach` body of `processProfileToSpans`:
compute the common prefix, run the END loop, run the START loop, and make the
current stack the previous one. -/
def applySampleT (parentId : Nat) (st : PState) (s : RSample) : PState :=
  let c := commonLen st.prevStack s.stack
  let st2 := startPass parentId s.stack s.ts (endPass s.ts c st st.prevStack.length) c
    (s.stack.length - c)
  PState.mk st2.activeSpans st2.nextSid st2.finished st2.clobbered s.stack

/-- The initial state of the sample loop: no active spans, empty `prevStack`. -/
def initialPState : PState := PState.mk [] 0 [] [] []

/-- The whole `samples.forEach` loop of `processProfileToSpans`. -/
def runSamples (parentId : Nat) (samples : List RSample) : PState :=
  samples.foldl (applySampleT parentId) initialPState

/-- `processProfileToSpans`: reconstruct the samples, run the span loops, then
end every span still open (`activeSpans.forEach(span => span.end())`).
Returns the final state and all ended spans in ending order. -/
def processProfileToSpans (profile : CpuProfile) (parentId : Nat) :
    PState × List TFin :=
  let st := runSamples parentId (reconstructSamples profile)
  (st, st.finished ++ st.activeSpans.map (fun p => TFin.mk p.2 none))

theorem mapGet_mem {κ α : Type} [DecidableEq κ] {m : List (κ × α)} {k : κ} {v : α}
    (h : mapGet m k = some v) : (k, v) ∈ m := by
  induction m with
  | nil => simp [mapGet] at h
  | cons p rest ih =>
    rcases p with ⟨pk, pv⟩
    rw [mapGet] at h
    split at h
    · next heq =>
      injection h with h2
      subst h2
      subst heq
      exact List.mem_cons_self _ _
    · exact List.mem_cons_of_mem _ (ih h)

theorem mapDel_sublist {κ α : Type} [DecidableEq κ] (m : List (κ × α)) (k : κ) :
    (mapDel m k).Sublist m := by
  induction m with
  | nil => simp [mapDel]
  | cons p rest ih =>
    rcases p with ⟨pk, pv⟩
    by_cases hp : pk = k
    · simp only [mapDel, if_pos hp]
      exact List.Sublist.cons _ ih
    · simp only [mapDel, if_neg hp]
      exact List.Sublist.cons₂ _ ih

theorem mem_keys_mapDel {κ α : Type} [DecidableEq κ] (m : List (κ × α)) (k d : κ) :
    d ∈ (mapDel m k).map Prod.fst ↔ d ∈ m.map Prod.fst ∧ d ≠ k := by
  induction m with
  | nil => simp [mapDel]
  | cons p rest ih =>
    rcases p with ⟨pk, pv⟩
    by_cases hp : pk = k
    · subst hp
      simp only [mapDel, if_pos rfl, if_true, ih, List.map_cons, List.mem_cons]
      constructor
      · rintro ⟨hd, hdk⟩
        exact ⟨Or.inr hd, hdk⟩
      · rintro ⟨(rfl | hd), hdk⟩
        · exact absurd rfl hdk
        · exact ⟨hd, hdk⟩
    · simp only [mapDel, if_neg hp, List.map_cons, List.mem_cons, ih]
      constructor
      · rintro (rfl | ⟨hd, hdk⟩)
        · exact ⟨Or.inl rfl, hp⟩
        · exact ⟨Or.inr hd, hdk⟩
      · rintro ⟨(rfl | hd), hdk⟩
        · exact Or.inl rfl
        · exact Or.inr ⟨hd, hdk⟩

theorem mem_mapSet {κ α : Type} [DecidableEq κ] {m : List (κ × α)} {k : κ} {v : α}
    {p : κ × α} (h : p ∈ mapSet m k v) : p ∈ m ∨ p = (k, v) := by
  induction m with
  | nil =>
    simp only [mapSet, List.mem_singleton] at h
    exact Or.inr h
  | cons q rest ih =>
    rcases q with ⟨qk, qv⟩
    by_cases hq : qk = k
    · simp only [mapSet, if_pos hq] at h
      rcases List.mem_cons.mp h with h | h
      · exact Or.inr h
      · exact Or.inl (List.mem_cons_of_mem _ h)
    · simp only [mapSet, if_neg hq] at h
      rcases List.mem_cons.mp h with h | h
      · exact Or.inl (by simp [h])
      · rcases ih h with h2 | h2
        · exact Or.inl (List.mem_cons_of_mem _ h2)
        · exact Or.inr h2

/-- Every span tracked or ended by the `processProfileToSpans` loop carries the
fixed `parentSpan` argument as its parent. -/
def parentInv (pid : Nat) (st : PState) : Prop :=
  (∀ p ∈ st.activeSpans, (Prod.snd p).parent = some pid) ∧
  (∀ f ∈ st.finished, f.span.parent = some pid)

theorem endPass_parentInv (pid : Nat) (ts : JsNum) (c : Nat) :
    ∀ (n : Nat) (st : PState), parentInv pid st → parentInv pid (endPass ts c st n) := by
  intro n
  induction n with
  | zero => intro st h; exact h
  | succ n ih =>
    intro st h
    by_cases hc : c < n + 1
    · simp only [endPass, if_pos hc]
      cases hg : mapGet st.activeSpans (n + 1) with
      | none =>
        simp only [hg]
        exact ih st h
      | some sp =>
        simp only [hg]
        apply ih
        constructor
        · intro p hp
          exact h.1 p ((mapDel_sublist _ _).subset hp)
        · intro f hf
          rcases List.mem_append.mp hf with hf | hf
          · exact h.2 f hf
          · have hsp := h.1 _ (mapGet_mem hg)
            simp only [List.mem_singleton] at hf
            rw [hf]
            exact hsp
    · simp only [endPass, if_neg hc]
      exact h

theorem startPass_parentInv (pid : Nat) (curr : List String) (ts : JsNum) :
    ∀ (n i : Nat) (st : PState), parentInv pid st →
      parentInv pid (startPass pid curr ts st i n) := by
  intro n
  induction n with
  | zero => intro i st h; exact h
  | succ n ih =>
    intro i st h
    by_cases hroot : curr.getD i "" = "(root)"
    · simp only [startPass, if_pos hroot]
      exact ih (i + 1) st h
    · simp only [startPass, if_neg hroot]
      apply ih
      constructor
      · intro p hp
        rcases mem_mapSet hp with hp2 | hp2
        · exact h.1 p hp2
        · rw [hp2]
      · exact h.2

theorem applySampleT_parentInv (pid : Nat) (st : PState) (s : RSample)
    (h : parentInv pid st) : parentInv pid (applySampleT pid st s) := by
  have h1 := endPass_parentInv pid s.ts (commonLen st.prevStack s.stack)
    st.prevStack.length st h
  exact startPass_parentInv pid s.stack s.ts
    (s.stack.length - commonLen st.prevStack s.stack)
    (commonLen st.prevStack s.stack) _ h1

theorem runSamples_parentInv (pid : Nat) (samples : List RSample) :
    parentInv pid (runSamples pid samples) := by
  have general : ∀ (l : List RSample) (st : PState), parentInv pid st →
      parentInv pid (l.foldl (applySampleT pid) st) := by
    intro l
    induction l with
    | nil => intro st h; exact h
    | cons a rest ih =>
      intro st h
      exact ih _ (applySampleT_parentInv pid st a h)
  refine general _ initialPState ⟨?_, ?_⟩ <;> simp [initialPState]

theorem buildSamplesLoop_length (nm : List (Nat × String)) (pm : List (Nat × Nat))
    (tds : List ℚ) : ∀ (ids : List Nat) (idx : Nat) (ct : JsNum),
    (buildSamplesLoop nm pm tds ids idx ct).length = ids.length := by
  intro ids
  induction ids with
  | nil => intro idx ct; simp [buildSamplesLoop]
  | cons a rest ih => intro idx ct; simp [buildSamplesLoop, ih]

theorem buildSamplesLoop_unknown_id (nm : List (Nat × String)) (pm : List (Nat × Nat))
    (tds : List ℚ) : ∀ (ids : List Nat) (idx : Nat) (ct : JsNum) (i nodeId : Nat),
    ids.get? i = some nodeId → mapGet nm nodeId = none →
    ∃ s, (buildSamplesLoop nm pm tds ids idx ct).get? i = some s ∧ s.stack = [] := by
  intro ids
  induction ids with
  | nil => intro idx ct i nodeId hget; simp at hget
  | cons a rest ih =>
    intro idx ct i nodeId hget hnm
    cases i with
    | zero =>
      simp only [List.get?_cons_zero, Option.some.injEq] at hget
      subst hget
      exact ⟨_, rfl, by simp [walkStack, hnm]⟩
    | succ j =>
      simp only [List.get?_cons_succ] at hget
      simpa [buildSamplesLoop] using ih (idx + 1) _ j nodeId hget hnm

theorem jsAdd_none_right (a : JsNum) : jsAdd a none = none := by
  cases a <;> rfl

theorem buildSamplesLoop_nan (nm : List (Nat × String)) (pm : List (Nat × Nat))
    (tds : List ℚ) : ∀ (ids : List Nat) (idx : Nat) (ct : JsNum) (i : Nat),
    tds.get? (idx + i) = none → i < ids.length →
    ∃ s, (buildSamplesLoop nm pm tds ids idx ct).get? i = some s ∧ s.ts = none := by
  intro ids
  induction ids with
  | nil => intro idx ct i _ hlen; simp at hlen
  | cons a rest ih =>
    intro idx ct i hnone hlen
    cases i with
    | zero =>
      have h1 : tds.get? idx = none := by simpa using hnone
      refine ⟨_, rfl, ?_⟩
      show jsDiv1000 (jsAdd ct (tds.get? idx)) = none
      rw [h1, jsAdd_none_right]
      rfl
    | succ j =>
      simp only [buildSamplesLoop, List.get?_cons_succ]
      apply ih (idx + 1)
      · rw [show idx + 1 + j = idx + (j + 1) from by omega]
        exact hnone
      · simpa using Nat.lt_of_succ_lt_succ hlen

/-- Claim C4 (amended): on the malformed inputs that stay inside the walk's
terminating domain, reconstruction does not fail with a structured "invalid
profile" error — it has no validation or throw path and emits garbage
Samples instead. The hypothesis restricts the statement to profiles on
which the source's per-entry parent walk exits (the code loops forever on an
id-cyclic parent map, which is a hang, not a structured error; this
embedding would otherwise truncate that hang): there, one Sample is emitted
per `samples` entry; an entry referencing a node id absent from the node map
yields a Sample with an empty stack (its walk exits at once); and an entry
at an index past the end of `timeDeltas` yields a Sample with a `NaN`
timestamp. -/
theorem c4_amended_no_validation (p : CpuProfile)
    (hterm : ∀ nid ∈ p.samples, walkExits (profileMaps p).1 (profileMaps p).2
      ((profileMaps p).1.length + 1) (some nid) = true) :
    (reconstructSamples p).length = p.samples.length ∧
    (∀ i nodeId, p.samples.get? i = some nodeId →
      mapGet (profileMaps p).1 nodeId = none →
      ∃ s, (reconstructSamples p).get? i = some s ∧ s.stack = []) ∧
    (∀ i, p.timeDeltas.length ≤ i → i < p.samples.length →
      ∃ s, (reconstructSamples p).get? i = some s ∧ s.ts = none) := by
  refine ⟨?_, ?_, ?_⟩
  · exact buildSamplesLoop_length _ _ _ _ _ _
  · intro i nodeId h1 h2
    exact buildSamplesLoop_unknown_id _ _ _ _ _ _ i nodeId h1 h2
  · intro i hge hlt
    have hnone : p.timeDeltas.get? (0 + i) = none := by
      rw [Nat.zero_add]
      exact List.get?_eq_none.mpr hge
    exact buildSamplesLoop_nan _ _ _ p.samples 0 (some p.startTime) i hnone hlt

/-- A malformed profile whose single `samples` entry references the unknown
node id 5. -/
def c4bad : CpuProfile := CpuProfile.mk [PNode.mk 1 "root" []] 0 [5] [1000]

/-- A malformed profile with two `samples` entries but a single `timeDeltas`
entry. -/
def c4mismatch : CpuProfile := CpuProfile.mk [PNode.mk 1 "root" []] 0 [1, 1] [1000]

/-- Counterexample to C4 as stated: on a sample entry referencing an unknown
node id, and likewise on mismatched `samples`/`timeDeltas` lengths, the
reconstruction does not fail with an "invalid profile" error — it emits one
Sample per entry anyway (an empty stack for the unknown id, a `NaN`
timestamp past the end of `timeDeltas`). -/
theorem c4_counterexample :
    (reconstructSamples c4bad).length = 1 ∧
    (reconstructSamples c4bad).map RSample.stack = [[]] ∧
    (reconstructSamples c4mismatch).length = 2 ∧
    (reconstructSamples c4mismatch).map RSample.stack = [["root"], ["root"]] ∧
    ((reconstructSamples c4mismatch).getD 0 (RSample.mk none [])).ts.isSome = true ∧
    ((reconstructSamples c4mismatch).getD 1 (RSample.mk none [])).ts = none :=
  ⟨rfl, rfl, rfl, rfl, rfl, rfl⟩

/-- Witness for the amended C4: the walk-termination hypothesis holds on both
malformed profiles, the unknown-node-id entry of `c4bad` yields an
empty-stack Sample, and the out-of-range entry of `c4mismatch` yields a
`NaN`-timestamped Sample. -/
theorem c4_amended_no_validation_witness :
    (∀ nid ∈ c4bad.samples, walkExits (profileMaps c4bad).1 (profileMaps c4bad).2
      ((profileMaps c4bad).1.length + 1) (some nid) = true) ∧
    c4bad.samples.get? 0 = some 5 ∧
    mapGet (profileMaps c4bad).1 5 = none ∧
    (∃ s, (reconstructSamples c4bad).get? 0 = some s ∧ s.stack = []) ∧
    (∀ nid ∈ c4mismatch.samples, walkExits (profileMaps c4mismatch).1
      (profileMaps c4mismatch).2 ((profileMaps c4mismatch).1.length + 1) (some nid) = true) ∧
    c4mismatch.timeDeltas.length ≤ 1 ∧
    1 < c4mismatch.samples.length ∧
    (∃ s, (reconstructSamples c4mismatch).get? 1 = some s ∧ s.ts = none) :=
  ⟨by decide, rfl, rfl,
   ((c4_amended_no_validation c4bad (by decide)).2.1) 0 5 rfl rfl,
   by decide, by decide, by decide,
   ((c4_amended_no_validation c4mismatch (by decide)).2.2) 1 (by decide) (by decide)⟩

/-- Claim C9: profile reconstruction is deterministic. The embedded
reconstruction is a pure function of the profile — the source derives every
timestamp from `startTime`/`timeDeltas` and every stack from the node tree,
reading no clock, randomness or ambient state — so two runs on the same
input produce the same Sample sequence, tick for tick. -/
theorem c9_reconstruct_deterministic (p : CpuProfile) :
    reconstructSamples p = reconstructSamples p ∧
    ∀ i, (reconstructSamples p).get? i = (reconstructSamples p).get? i :=
  ⟨rfl, fun _ => rfl⟩

/-- A well-formed three-frame profile: `(root)` → `alpha` → `beta`, one tick
sampled at the `beta` leaf. -/
def c7profile : CpuProfile :=
  CpuProfile.mk [PNode.mk 1 "(root)" [PNode.mk 2 "alpha" [PNode.mk 3 "beta" []]]] 0 [3] [1000]

/-- Counterexample to C7 as stated: processing `c7profile` with parent span 42
opens `alpha` (span 0) at depth 1 and `beta` (span 1) at depth 2; at `beta`'s
START the slot one depth below holds span 0 (`below = some 0`), yet the
parent attached to `beta` is the external `parentSpan` argument 42, not
span 0 — the code never links a child to the enclosing depth − 1 span. -/
theorem c7_counterexample :
    (processProfileToSpans c7profile 42).2.map
      (fun f => (f.span.sid, f.span.name, f.span.parent, f.span.below)) =
      [(0, "alpha", some 42, none), (1, "beta", some 42, some 0)] ∧
    (some 42 : Option Nat) ≠ some 0 :=
  ⟨rfl, by decide⟩

/-- Claim C7 (amended): every span handed off by `processProfileToSpans`
carries the single `parentSpan` argument as its parent, whatever its depth;
no parent linkage is derived from the span at depth − 1. -/
theorem c7_amended_parent_is_argument (profile : CpuProfile) (parentId : Nat) :
    ∀ f ∈ (processProfileToSpans profile parentId).2, f.span.parent = some parentId := by
  intro f hf
  have h := runSamples_parentInv parentId (reconstructSamples profile)
  simp only [processProfileToSpans] at hf
  rcases List.mem_append.mp hf with hf | hf
  · exact h.2 f hf
  · rcases List.mem_map.mp hf with ⟨p, hp, hfp⟩
    rw [← hfp]
    exact h.1 p hp

/-- Witness for the amended C7: the `alpha` span of `c7profile` is in the
handoff and carries parent 42. -/
theorem c7_amended_parent_is_argument_witness :
    (TFin.mk (TSpan.mk 0 "alpha" (some ((0 + 1000) / 1000)) (some 42) none) none ∈
      (processProfileToSpans c7profile 42).2) ∧
    (TFin.mk (TSpan.mk 0 "alpha" (some ((0 + 1000) / 1000)) (some 42) none) none).span.parent =
      some 42 :=
  ⟨List.mem_cons_self _ _,
   c7_amended_parent_is_argument c7profile 42 _ (List.mem_cons_self _ _)⟩

theorem endPass_spec (ts : JsNum) (c : Nat) :
    ∀ (n : Nat) (st : PState),
      (endPass ts c st n).nextSid = st.nextSid ∧
      (endPass ts c st n).clobbered = st.clobbered ∧
      (endPass ts c st n).prevStack = st.prevStack ∧
      ((endPass ts c st n).activeSpans).Sublist st.activeSpans ∧
      (∀ d ∈ (endPass ts c st n).activeSpans.map Prod.fst, ¬(c < d ∧ d ≤ n)) := by
  intro n
  induction n with
  | zero =>
    intro st
    exact ⟨rfl, rfl, rfl, List.Sublist.refl _, fun d _ => by omega⟩
  | succ n ih =>
    intro st
    by_cases hc : c < n + 1
    · simp only [endPass, if_pos hc]
      cases hg : mapGet st.activeSpans (n + 1) with
      | none =>
        simp only [hg]
        obtain ⟨h1, h2, h3, h4, h5⟩ := ih st
        refine ⟨h1, h2, h3, h4, ?_⟩
        intro d hd
        have hmem : d ∈ st.activeSpans.map Prod.fst := (h4.map Prod.fst).subset hd
        have hne : d ≠ n + 1 := by
          intro he
          subst he
          rw [mapGet_eq_none_iff] at hg
          exact hg hmem
        have := h5 d hd
        omega
      | some sp =>
        simp only [hg]
        obtain ⟨h1, h2, h3, h4, h5⟩ := ih (PState.mk (mapDel st.activeSpans (n + 1))
          st.nextSid (st.finished ++ [TFin.mk sp (some ts)]) st.clobbered st.prevStack)
        refine ⟨h1, h2, h3, h4.trans (mapDel_sublist _ _), ?_⟩
        intro d hd
        have hdel : d ∈ (mapDel st.activeSpans (n + 1)).map Prod.fst :=
          (h4.map Prod.fst).subset hd
        rw [mem_keys_mapDel] at hdel
        have := h5 d hd
        have hne := hdel.2
        omega
    · simp only [endPass, if_neg hc]
      refine ⟨trivial, trivial, trivial, List.Sublist.refl _, ?_⟩
      intro d _
      omega

theorem startPass_spec (pid : Nat) (curr : List String) (ts : JsNum) :
    ∀ (n i : Nat) (st : PState),
      st.clobbered = [] →
      (st.activeSpans.map Prod.fst).Nodup →
      (∀ d ∈ st.activeSpans.map Prod.fst, 1 ≤ d ∧ d ≤ i) →
      (startPass pid curr ts st i n).clobbered = [] ∧
      ((startPass pid curr ts st i n).activeSpans.map Prod.fst).Nodup ∧
      (∀ d ∈ (startPass pid curr ts st i n).activeSpans.map Prod.fst,
        1 ≤ d ∧ d ≤ i + n) ∧
      (startPass pid curr ts st i n).prevStack = st.prevStack := by
  intro n
  induction n with
  | zero =>
    intro i st hc hnd hb
    exact ⟨hc, hnd, fun d hd => by have := hb d hd; omega, rfl⟩
  | succ n ih =>
    intro i st hc hnd hb
    by_cases hroot : curr.getD i "" = "(root)"
    · simp only [startPass, if_pos hroot]
      obtain ⟨h1, h2, h3, h4⟩ := ih (i + 1) st hc hnd
        (fun d hd => by have := hb d hd; omega)
      exact ⟨h1, h2, fun d hd => by have := h3 d hd; omega, h4⟩
    · simp only [startPass, if_neg hroot]
      have hget : mapGet st.activeSpans (i + 1) = none := by
        rw [mapGet_eq_none_iff]
        intro hmem
        have := hb _ hmem
        omega
      have hhas : mapHas st.activeSpans (i + 1) = false := by
        simp [mapHas, hget]
      have hset := mapSet_of_get_none st.activeSpans (i + 1)
        (TSpan.mk st.nextSid (curr.getD i "") ts (some pid)
          ((mapGet st.activeSpans i).map TSpan.sid)) hget
      have hkeys2 : (mapSet st.activeSpans (i + 1)
          (TSpan.mk st.nextSid (curr.getD i "") ts (some pid)
            ((mapGet st.activeSpans i).map TSpan.sid))).map Prod.fst =
          st.activeSpans.map Prod.fst ++ [i + 1] := by
        rw [hset]
        simp
      have hclob2 : (if mapHas st.activeSpans (i + 1) then st.clobbered ++ [i + 1]
          else st.clobbered) = [] := by
        rw [hhas]
        simpa using hc
      have hnotin : (i + 1) ∉ st.activeSpans.map Prod.fst := by
        intro hmem
        have := hb _ hmem
        omega
      have hnd2 : ((mapSet st.activeSpans (i + 1)
          (TSpan.mk st.nextSid (curr.getD i "") ts (some pid)
            ((mapGet st.activeSpans i).map TSpan.sid))).map Prod.fst).Nodup := by
        rw [hkeys2]
        exact hnd.append (List.nodup_singleton _) (List.disjoint_singleton.mpr hnotin)
      have hb2 : ∀ d ∈ (mapSet st.activeSpans (i + 1)
          (TSpan.mk st.nextSid (curr.getD i "") ts (some pid)
            ((mapGet st.activeSpans i).map TSpan.sid))).map Prod.fst,
          1 ≤ d ∧ d ≤ i + 1 := by
        rw [hkeys2]
        intro d hd
        rcases List.mem_append.mp hd with hd | hd
        · have := hb d hd
          omega
        · simp only [List.mem_singleton] at hd
          omega
      obtain ⟨h1, h2, h3, h4⟩ := ih (i + 1)
        (PState.mk (mapSet st.activeSpans (i + 1)
            (TSpan.mk st.nextSid (curr.getD i "") ts (some pid)
              ((mapGet st.activeSpans i).map TSpan.sid)))
          (st.nextSid + 1) st.finished
          (if mapHas st.activeSpans (i + 1) then st.clobbered ++ [i + 1] else st.clobbered)
          st.prevStack) hclob2 hnd2 hb2
      exact ⟨h1, h2, fun d hd => by have := h3 d hd; omega, h4⟩

theorem applySampleT_c3 (pid : Nat) (st : PState) (s : RSample)
    (hc : st.clobbered = []) (hnd : (st.activeSpans.map Prod.fst).Nodup)
    (hb : ∀ d ∈ st.activeSpans.map Prod.fst, 1 ≤ d ∧ d ≤ st.prevStack.length) :
    (applySampleT pid st s).clobbered = [] ∧
    ((applySampleT pid st s).activeSpans.map Prod.fst).Nodup ∧
    (∀ d ∈ (applySampleT pid st s).activeSpans.map Prod.fst,
      1 ≤ d ∧ d ≤ (applySampleT pid st s).prevStack.length) := by
  obtain ⟨e1, e2, e3, e4, e5⟩ := endPass_spec s.ts (commonLen st.prevStack s.stack)
    st.prevStack.length st
  have hc1 : (endPass s.ts (commonLen st.prevStack s.stack) st st.prevStack.length).clobbered
      = [] := by
    rw [e2]
    exact hc
  have hnd1 : (((endPass s.ts (commonLen st.prevStack s.stack) st
      st.prevStack.length).activeSpans).map Prod.fst).Nodup :=
    List.Nodup.sublist (e4.map Prod.fst) hnd
  have hb1 : ∀ d ∈ ((endPass s.ts (commonLen st.prevStack s.stack) st
      st.prevStack.length).activeSpans).map Prod.fst,
      1 ≤ d ∧ d ≤ commonLen st.prevStack s.stack := by
    intro d hd
    have hmem := (e4.map Prod.fst).subset hd
    have h5 := e5 d hd
    have := hb d hmem
    omega
  obtain ⟨s1, s2, s3, s4⟩ := startPass_spec pid s.stack s.ts
    (s.stack.length - commonLen st.prevStack s.stack)
    (commonLen st.prevStack s.stack) _ hc1 hnd1 hb1
  have hcr := commonLen_le_right st.prevStack s.stack
  refine ⟨s1, s2, ?_⟩
  intro d hd
  have h3 := s3 d hd
  constructor
  · exact h3.1
  · have := h3.2
    simp only [applySampleT]
    omega

/-- Claim C3: in the depth-keyed span table of `processProfileToSpans`, every
reachable state of the sample loop (any sample sequence, hence any profile)
has pairwise-distinct depth keys — never two open spans for one depth — and
the observational `clobbered` list stays empty: `activeSpans.set` never
stores a span at a depth key that still holds an open span, i.e. a depth slot
is always closed and removed before it is reused. -/
theorem c3_depth_slot_discipline (parentId : Nat) :
    (∀ samples : List RSample,
      (runSamples parentId samples).clobbered = [] ∧
      ((runSamples parentId samples).activeSpans.map Prod.fst).Nodup) ∧
    (∀ profile : CpuProfile,
      (processProfileToSpans profile parentId).1.clobbered = [] ∧
      ((processProfileToSpans profile parentId).1.activeSpans.map Prod.fst).Nodup) := by
  have general : ∀ (l : List RSample) (st : PState),
      st.clobbered = [] → (st.activeSpans.map Prod.fst).Nodup →
      (∀ d ∈ st.activeSpans.map Prod.fst, 1 ≤ d ∧ d ≤ st.prevStack.length) →
      (l.foldl (applySampleT parentId) st).clobbered = [] ∧
      ((l.foldl (applySampleT parentId) st).activeSpans.map Prod.fst).Nodup := by
    intro l
    induction l with
    | nil => intro st hc hnd _; exact ⟨hc, hnd⟩
    | cons a rest ih =>
      intro st hc hnd hb
      obtain ⟨h1, h2, h3⟩ := applySampleT_c3 parentId st a hc hnd hb
      exact ih _ h1 h2 h3
  have hrun : ∀ samples : List RSample,
      (runSamples parentId samples).clobbered = [] ∧
      ((runSamples parentId samples).activeSpans.map Prod.fst).Nodup := by
    intro samples
    exact general samples initialPState rfl (by simp [initialPState]) (by simp [initialPState])
  exact ⟨hrun, fun profile => hrun (reconstructSamples profile)⟩
